import Mathlib

/-!
Verification of the scalar reverse-mode autodiff engine in `src/grad_eng.py`.

The Python class `Value` is embedded arena-style: a computation graph is a
list of node records, a node reference is its index in that list (node
identity = index), and the backward closures of the source are embedded as a
tagged step datatype (`BStep`) holding exactly the data the closures capture,
interpreted by `applyStep`.  Scalars are modelled as exact rationals; the
transcendental helpers `math.exp` and `math.tanh` are abstract parameters of
the operations that use them.
-/

/-- Failure conditions of the engine (AssertionError for a non-numeric
exponent, ZeroDivisionError, ValueError of `max()` on an empty sequence). -/
inductive Err where
  | invalidOperand
  | divisionByZero
  | emptyInput
deriving DecidableEq, Repr

/-- The backward step attached to a node: the data captured by the
`_backward` closures in `grad_eng.py`, one constructor per closure shape.
`noop` is the default `lambda: None`.  `softmaxStep ins outs` is the single
joint closure shared by all outputs of one softmax call. -/
inductive BStep where
  | noop
  | add (a b out : Nat)
  | mul (a b out : Nat)
  | pow (a : Nat) (n : ℤ) (out : Nat)
  | relu (a out : Nat)
  | tanh (a out : Nat) (t : ℚ)
  | softmaxStep (ins outs : List Nat)
deriving DecidableEq, Repr

/-- One `Value` object: `data`, `grad`, `_prev`, `_op`, `_backward`. -/
structure NodeRec where
  data : ℚ
  grad : ℚ
  prev : List Nat
  op : String
  step : BStep
deriving DecidableEq, Repr

/-- The arena of allocated `Value` objects; a node id is an index into it. -/
abbrev Graph := List NodeRec

def defRec : NodeRec := ⟨0, 0, [], "", .noop⟩

def nodeOf (g : Graph) (i : Nat) : NodeRec := g.getD i defRec

def dataOf (g : Graph) (i : Nat) : ℚ := (nodeOf g i).data

def gradOf (g : Graph) (i : Nat) : ℚ := (nodeOf g i).grad

def prevOf (g : Graph) (i : Nat) : List Nat := (nodeOf g i).prev

def opOf (g : Graph) (i : Nat) : String := (nodeOf g i).op

def stepOf (g : Graph) (i : Nat) : BStep := (nodeOf g i).step

/-- Update the `grad` field of node `i` in place (out-of-range: no-op). -/
def updGrad : Graph → Nat → (ℚ → ℚ) → Graph
  | [], _, _ => []
  | n :: r, 0, f => { n with grad := f n.grad } :: r
  | n :: r, i + 1, f => n :: updGrad r i f

/-- Embedding of `node.grad += q`. -/
def addGrad (g : Graph) (i : Nat) (q : ℚ) : Graph := updGrad g i (· + q)

/-- Embedding of `node.grad = q`. -/
def setGrad (g : Graph) (i : Nat) (q : ℚ) : Graph := updGrad g i (fun _ => q)

/-- Helper for `pySet`: `seen` accumulates the elements already emitted. -/
def pySetAux : List Nat → List Nat → List Nat
  | _, [] => []
  | seen, a :: l =>
    if a ∈ seen then pySetAux seen l else a :: pySetAux (a :: seen) l

/-- Embedding of `set(children)`: duplicates removed, first occurrence kept. -/
def pySet (l : List Nat) : List Nat := pySetAux [] l

namespace Value

/-- Embedding of `Value(data)`: allocate a leaf node; returns the new arena and node id. -/
def value (g : Graph) (d : ℚ) : Graph × Nat :=
  (g ++ [⟨d, 0, pySet [], "", .noop⟩], g.length)

/-- Embedding of `__add__` on two nodes. -/
def add (g : Graph) (a b : Nat) : Graph × Nat :=
  (g ++ [⟨dataOf g a + dataOf g b, 0, pySet [a, b], "+", .add a b g.length⟩],
   g.length)

/-- Embedding of `__mul__` on two nodes. -/
def mul (g : Graph) (a b : Nat) : Graph × Nat :=
  (g ++ [⟨dataOf g a * dataOf g b, 0, pySet [a, b], "*", .mul a b g.length⟩],
   g.length)

/-- The argument passed as exponent to `__pow__`: a plain number or
another `Value` object. -/
inductive PowOperand where
  | num (n : ℤ)
  | node (i : Nat)

/-- Embedding of `__pow__`: asserts the exponent is a number, then evaluates
`self.data ** exponent` (Python raises ZeroDivisionError on `0 ** n`, n<0). -/
def pow (g : Graph) (a : Nat) (e : PowOperand) : Except Err (Graph × Nat) :=
  match e with
  | .node _ => .error .invalidOperand
  | .num n =>
    if dataOf g a = 0 ∧ n < 0 then .error .divisionByZero
    else
      .ok (g ++ [⟨dataOf g a ^ n, 0, pySet [a], "**" ++ toString n,
                  .pow a n g.length⟩], g.length)

/-- Embedding of `relu`. -/
def relu (g : Graph) (a : Nat) : Graph × Nat :=
  (g ++ [⟨max 0 (dataOf g a), 0, pySet [a], "ReLU", .relu a g.length⟩],
   g.length)

/-- Embedding of `tanh`; `tq` models `math.tanh`, the forward result is captured in
the step. -/
def tanh (tq : ℚ → ℚ) (g : Graph) (a : Nat) : Graph × Nat :=
  (g ++ [⟨tq (dataOf g a), 0, pySet [a], "tanh",
          .tanh a g.length (tq (dataOf g a))⟩], g.length)

/-- Embedding of `max(v.data for v in values)` via a left fold from the first element. -/
def listMax : ℚ → List ℚ → ℚ
  | m, [] => m
  | m, x :: l => listMax (max m x) l

/-- Embedding of `softmax`; `expq` models `math.exp`.  All outputs share the single
joint backward step.  Each output `i` records only `values[i]` as parent. -/
def softmax (expq : ℚ → ℚ) (g : Graph) (ins : List Nat) :
    Except Err (Graph × List Nat) :=
  match ins with
  | [] => .error .emptyInput
  | v0 :: rest =>
    let m := listMax (dataOf g v0) (rest.map (dataOf g))
    let exps := ins.map (fun v => expq (dataOf g v - m))
    let sumExps := exps.sum
    let outIds := (List.range ins.length).map (fun k => g.length + k)
    let news := (ins.zip exps).map
      (fun ve => (⟨ve.2 / sumExps, 0, pySet [ve.1], "softmax",
                   .softmaxStep ins outIds⟩ : NodeRec))
    .ok (g ++ news, outIds)

/-- Embedding of `__neg__`: `self * -1` (the constant is promoted to a fresh leaf). -/
def neg (g : Graph) (a : Nat) : Graph × Nat :=
  let c := value g (-1)
  mul c.1 a c.2

/-- Embedding of `__sub__`: `self + (-other)`. -/
def sub (g : Graph) (a b : Nat) : Graph × Nat :=
  let nb := neg g b
  add nb.1 a nb.2

/-- Embedding of `__truediv__`: `self * other**-1`. -/
def div (g : Graph) (a b : Nat) : Except Err (Graph × Nat) :=
  match pow g b (.num (-1)) with
  | .error e => .error e
  | .ok (g1, p) => .ok (mul g1 a p)

/-- Embedding of `build_topo`: depth-first traversal; the state is the pair
`(visited, topo)`.  The list argument is fuel, a termination device only:
in a well-formed graph a node's parents have strictly smaller ids, so
starting from fuel `g` (length `g.length`) it is never exhausted. -/
def dfs (g : Graph) : List NodeRec → Nat → List Nat × List Nat →
    List Nat × List Nat
  | [], _, st => st
  | _ :: fuel, v, st =>
    if v ∈ st.1 then st
    else
      let st1 := (prevOf g v).foldl (fun acc p => dfs g fuel p acc)
        (v :: st.1, st.2)
      (st1.1, st1.2 ++ [v])

/-- The topological order `topo` built by `backward`. -/
def topoList (g : Graph) (r : Nat) : List Nat := (dfs g g r ([], [])).2

/-- Run one backward step (the body of each `_backward` closure).
`self.data ** (exponent - 1)` in the pow closure raises ZeroDivisionError
when the base is 0 and the exponent - 1 is negative. -/
def applyStep (g : Graph) : BStep → Except Err Graph
  | .noop => .ok g
  | .add a b out =>
    let g1 := addGrad g a (gradOf g out)
    .ok (addGrad g1 b (gradOf g1 out))
  | .mul a b out =>
    let g1 := addGrad g a (dataOf g b * gradOf g out)
    .ok (addGrad g1 b (dataOf g1 a * gradOf g1 out))
  | .pow a n out =>
    if dataOf g a = 0 ∧ n - 1 < 0 then .error .divisionByZero
    else .ok (addGrad g a ((n : ℚ) * dataOf g a ^ (n - 1) * gradOf g out))
  | .relu a out =>
    .ok (addGrad g a ((if 0 < dataOf g a then (1 : ℚ) else 0) * gradOf g out))
  | .tanh a out t =>
    .ok (addGrad g a ((1 - t ^ 2) * gradOf g out))
  | .softmaxStep ins outs =>
    .ok ((List.range ins.length).foldl (fun acc i =>
      (List.range ins.length).foldl (fun acc2 j =>
        if i = j then
          addGrad acc2 (ins.getD j 0)
            (gradOf acc2 (outs.getD i 0) * dataOf acc2 (outs.getD i 0) *
              (1 - dataOf acc2 (outs.getD j 0)))
        else
          addGrad acc2 (ins.getD j 0)
            (-(gradOf acc2 (outs.getD i 0)) * dataOf acc2 (outs.getD i 0) *
              dataOf acc2 (outs.getD j 0))) acc) g)

/-- The loop `for node in reversed(topo): node._backward()`: each node's
current backward step is run in sequence, stopping at the first failure. -/
def runSteps : List Nat → Graph → Except Err Graph
  | [], g => .ok g
  | v :: rest, g =>
    match applyStep g (stepOf g v) with
    | .error e => .error e
    | .ok g1 => runSteps rest g1

/-- Embedding of `backward`: topological sort, seed the root's grad with 1, then run the
steps in reverse topological order. -/
def backward (g : Graph) (r : Nat) : Except Err Graph :=
  runSteps (topoList g r).reverse (setGrad g r 1)

end Value

/-- The node ids a step writes gradient contributions into. -/
def stepWrites : BStep → List Nat
  | .noop => []
  | .add a b _ => [a, b]
  | .mul a b _ => [a, b]
  | .pow a _ _ => [a]
  | .relu a _ => [a]
  | .tanh a _ _ => [a]
  | .softmaxStep ins _ => ins

/-- Well-formed arena: graphs produced by the constructors satisfy this —
every node's parents, and every id its step writes to, are strictly older
(smaller) than the node itself.  In particular the graph is acyclic. -/
def WF (g : Graph) : Prop :=
  ∀ i, i < g.length →
    (∀ p ∈ prevOf g i, p < i) ∧ (∀ x ∈ stepWrites (stepOf g i), x < i)

instance : DecidablePred WF := fun g =>
  inferInstanceAs (Decidable (∀ i, i < g.length → _))

/-- Reachability along parent edges (a node reaches itself and all of its
ancestors). -/
inductive Reach (g : Graph) : Nat → Nat → Prop
  | refl (v : Nat) : Reach g v v
  | head {v p x : Nat} : p ∈ prevOf g v → Reach g p x → Reach g v x

/-- A list of node ids in dependency order: every element's parents occur
among the earlier elements. -/
inductive Ordered (g : Graph) : List Nat → Prop
  | nil : Ordered g []
  | snoc {l : List Nat} {v : Nat} :
      Ordered g l → (∀ p ∈ prevOf g v, p ∈ l) → Ordered g (l ++ [v])

/-- Frame relation: `g2` agrees with `g` on length and every field except `grad`. -/
def sameShape (g g' : Graph) : Prop :=
  g'.length = g.length ∧
  ∀ i, dataOf g' i = dataOf g i ∧ prevOf g' i = prevOf g i ∧
    opOf g' i = opOf g i ∧ stepOf g' i = stepOf g i

/-- Invariant of the `build_topo` traversal state: `pend` is the list of
nodes whose visits are still open (on the recursion stack).  The visited
set is exactly the emitted topo order plus the open nodes, the topo order
is duplicate-free and dependency-ordered, and no emitted node is open. -/
def GoodSt (g : Graph) (pend : List Nat) (st : List Nat × List Nat) : Prop :=
  st.2.Nodup ∧ Ordered g st.2 ∧
  (∀ x, x ∈ st.1 ↔ (x ∈ st.2 ∨ x ∈ pend)) ∧
  (∀ x ∈ st.2, x ∉ pend)

/-- The model of `math.exp` used for concrete softmax executions whose
inputs are all equal (only `exp 0 = 1` matters there, as for `math.exp`). -/
def expOne : ℚ → ℚ := fun _ => 1

/-- Client graph of the softmax fan-out scenario:
`x0 = Value(0); x1 = Value(0); o = softmax([x0, x1]);
root = o[0] + o[1] * 3`. -/
def c1Build : Graph × Nat :=
  let s1 := Value.value [] 0
  let s2 := Value.value s1.1 0
  match Value.softmax expOne s2.1 [0, 1] with
  | .error _ => ([], 0)
  | .ok (gs, outs) =>
    let c := Value.value gs 3
    let m := Value.mul c.1 (outs.getD 1 0) c.2
    Value.add m.1 (outs.getD 0 0) m.2

/-! ### Basic lemmas about the arena -/

theorem nodeOf_append_lt (g l : Graph) (i : Nat) (h : i < g.length) :
    nodeOf (g ++ l) i = nodeOf g i := by
  induction g generalizing i with
  | nil => exact absurd h (Nat.not_lt_zero i)
  | cons e g ih =>
    cases i with
    | zero => rfl
    | succ i => exact ih i (Nat.lt_of_succ_lt_succ h)

theorem nodeOf_append_right (g l : Graph) (k : Nat) :
    nodeOf (g ++ l) (g.length + k) = nodeOf l k := by
  induction g with
  | nil => simp
  | cons e g ih => simpa [Nat.succ_add] using ih

theorem nodeOf_append_self (g : Graph) (e : NodeRec) :
    nodeOf (g ++ [e]) g.length = e := by
  have h := nodeOf_append_right g [e] 0
  simpa using h

theorem nodeOf_ge (g : Graph) (i : Nat) (h : g.length ≤ i) :
    nodeOf g i = defRec := by
  induction g generalizing i with
  | nil => rfl
  | cons e g ih =>
    cases i with
    | zero => exact absurd h (by simp)
    | succ i => exact ih i (Nat.le_of_succ_le_succ h)

theorem updGrad_length (g : Graph) (i : Nat) (f : ℚ → ℚ) :
    (updGrad g i f).length = g.length := by
  induction g generalizing i with
  | nil => rfl
  | cons e g ih => cases i <;> simp [updGrad, ih]

theorem updGrad_ge (g : Graph) (i : Nat) (f : ℚ → ℚ) (h : g.length ≤ i) :
    updGrad g i f = g := by
  induction g generalizing i with
  | nil => rfl
  | cons e g ih =>
    cases i with
    | zero => exact absurd h (by simp)
    | succ i => simp [updGrad, ih i (Nat.le_of_succ_le_succ h)]

theorem nodeOf_updGrad_ne (g : Graph) (i j : Nat) (f : ℚ → ℚ) (h : j ≠ i) :
    nodeOf (updGrad g i f) j = nodeOf g j := by
  induction g generalizing i j with
  | nil => rfl
  | cons e g ih =>
    cases i with
    | zero =>
      cases j with
      | zero => exact absurd rfl h
      | succ j => rfl
    | succ i =>
      cases j with
      | zero => rfl
      | succ j =>
        have := ih i j (fun hh => h (by simp [hh]))
        simpa [updGrad, nodeOf] using this

theorem nodeOf_updGrad_self (g : Graph) (i : Nat) (f : ℚ → ℚ)
    (h : i < g.length) :
    nodeOf (updGrad g i f) i =
      { nodeOf g i with grad := f (nodeOf g i).grad } := by
  induction g generalizing i with
  | nil => exact absurd h (Nat.not_lt_zero i)
  | cons e g ih =>
    cases i with
    | zero => rfl
    | succ i =>
      have := ih i (Nat.lt_of_succ_lt_succ h)
      simpa [updGrad, nodeOf] using this

theorem dataOf_updGrad (g : Graph) (i j : Nat) (f : ℚ → ℚ) :
    dataOf (updGrad g i f) j = dataOf g j := by
  by_cases hj : j = i
  · subst hj
    by_cases hi : j < g.length
    · simp [dataOf, nodeOf_updGrad_self g j f hi]
    · simp [updGrad_ge g j f (Nat.le_of_not_lt hi)]
  · simp [dataOf, nodeOf_updGrad_ne g i j f hj]

theorem prevOf_updGrad (g : Graph) (i j : Nat) (f : ℚ → ℚ) :
    prevOf (updGrad g i f) j = prevOf g j := by
  by_cases hj : j = i
  · subst hj
    by_cases hi : j < g.length
    · simp [prevOf, nodeOf_updGrad_self g j f hi]
    · simp [updGrad_ge g j f (Nat.le_of_not_lt hi)]
  · simp [prevOf, nodeOf_updGrad_ne g i j f hj]

theorem opOf_updGrad (g : Graph) (i j : Nat) (f : ℚ → ℚ) :
    opOf (updGrad g i f) j = opOf g j := by
  by_cases hj : j = i
  · subst hj
    by_cases hi : j < g.length
    · simp [opOf, nodeOf_updGrad_self g j f hi]
    · simp [updGrad_ge g j f (Nat.le_of_not_lt hi)]
  · simp [opOf, nodeOf_updGrad_ne g i j f hj]

theorem stepOf_updGrad (g : Graph) (i j : Nat) (f : ℚ → ℚ) :
    stepOf (updGrad g i f) j = stepOf g j := by
  by_cases hj : j = i
  · subst hj
    by_cases hi : j < g.length
    · simp [stepOf, nodeOf_updGrad_self g j f hi]
    · simp [updGrad_ge g j f (Nat.le_of_not_lt hi)]
  · simp [stepOf, nodeOf_updGrad_ne g i j f hj]

theorem gradOf_addGrad_self (g : Graph) (i : Nat) (q : ℚ) (h : i < g.length) :
    gradOf (addGrad g i q) i = gradOf g i + q := by
  simp [gradOf, addGrad, nodeOf_updGrad_self g i _ h]

theorem gradOf_addGrad_ne (g : Graph) (i j : Nat) (q : ℚ) (h : j ≠ i) :
    gradOf (addGrad g i q) j = gradOf g j := by
  simp [gradOf, addGrad, nodeOf_updGrad_ne g i j _ h]

theorem gradOf_setGrad_self (g : Graph) (i : Nat) (q : ℚ) (h : i < g.length) :
    gradOf (setGrad g i q) i = q := by
  simp [gradOf, setGrad, nodeOf_updGrad_self g i _ h]

theorem gradOf_setGrad_ne (g : Graph) (i j : Nat) (q : ℚ) (h : j ≠ i) :
    gradOf (setGrad g i q) j = gradOf g j := by
  simp [gradOf, setGrad, nodeOf_updGrad_ne g i j _ h]

theorem mem_pySetAux (l : List Nat) :
    ∀ (seen : List Nat) (x : Nat), x ∈ pySetAux seen l ↔ x ∈ l ∧ x ∉ seen := by
  induction l with
  | nil => intro seen x; simp [pySetAux]
  | cons a l ih =>
    intro seen x
    by_cases ha : a ∈ seen
    · simp only [pySetAux, if_pos ha, ih, List.mem_cons]
      constructor
      · rintro ⟨h1, h2⟩; exact ⟨Or.inr h1, h2⟩
      · rintro ⟨h1 | h1, h2⟩
        · exact absurd (h1 ▸ ha) h2
        · exact ⟨h1, h2⟩
    · simp only [pySetAux, if_neg ha, List.mem_cons, ih, not_or]
      constructor
      · rintro (h1 | ⟨h1, _, h3⟩)
        · exact ⟨Or.inl h1, h1 ▸ ha⟩
        · exact ⟨Or.inr h1, h3⟩
      · rintro ⟨h1 | h1, h2⟩
        · exact Or.inl h1
        · by_cases hxa : x = a
          · exact Or.inl hxa
          · exact Or.inr ⟨h1, hxa, h2⟩

theorem mem_pySet (l : List Nat) (x : Nat) : x ∈ pySet l ↔ x ∈ l := by
  simp [pySet, mem_pySetAux]

theorem pySet_single (a : Nat) : pySet [a] = [a] := by
  simp [pySet, pySetAux]

theorem pySet_pair_self (a : Nat) : pySet [a, a] = [a] := by
  simp [pySet, pySetAux]

/-! ### Frame machinery: steps only touch `grad` fields -/


theorem sameShape_refl (g : Graph) : sameShape g g :=
  ⟨rfl, fun _ => ⟨rfl, rfl, rfl, rfl⟩⟩

theorem sameShape_trans {g1 g2 g3 : Graph} (h1 : sameShape g1 g2)
    (h2 : sameShape g2 g3) : sameShape g1 g3 := by
  refine ⟨h2.1.trans h1.1, fun i => ?_⟩
  obtain ⟨d1, p1, o1, s1⟩ := h1.2 i
  obtain ⟨d2, p2, o2, s2⟩ := h2.2 i
  exact ⟨d2.trans d1, p2.trans p1, o2.trans o1, s2.trans s1⟩

theorem sameShape_updGrad (g : Graph) (i : Nat) (f : ℚ → ℚ) :
    sameShape g (updGrad g i f) :=
  ⟨updGrad_length g i f, fun j =>
    ⟨dataOf_updGrad g i j f, prevOf_updGrad g i j f, opOf_updGrad g i j f,
     stepOf_updGrad g i j f⟩⟩

theorem sameShape_addGrad (g : Graph) (i : Nat) (q : ℚ) :
    sameShape g (addGrad g i q) := sameShape_updGrad g i _

/-- Generic invariant preservation through `List.foldl`. -/
theorem foldl_inv {α : Type} (P : Graph → Prop) (f : Graph → α → Graph)
    (l : List α) (g : Graph) (h0 : P g)
    (hstep : ∀ acc a, a ∈ l → P acc → P (f acc a)) : P (l.foldl f g) := by
  induction l generalizing g with
  | nil => exact h0
  | cons a l ih =>
    exact ih (f g a) (hstep g a (List.mem_cons_self a l) h0)
      (fun acc b hb => hstep acc b (List.mem_cons_of_mem a hb))

theorem applyStep_sameShape (g g' : Graph) (s : BStep)
    (h : Value.applyStep g s = .ok g') : sameShape g g' := by
  cases s with
  | noop => cases h; exact sameShape_refl g
  | add a b out =>
    cases h
    exact sameShape_trans (sameShape_addGrad g a _) (sameShape_addGrad _ b _)
  | mul a b out =>
    cases h
    exact sameShape_trans (sameShape_addGrad g a _) (sameShape_addGrad _ b _)
  | pow a n out =>
    by_cases hc : dataOf g a = 0 ∧ n - 1 < 0
    · simp [Value.applyStep, hc] at h
    · simp only [Value.applyStep, if_neg hc] at h
      cases h
      exact sameShape_addGrad g a _
  | relu a out => cases h; exact sameShape_addGrad g a _
  | tanh a out t => cases h; exact sameShape_addGrad g a _
  | softmaxStep ins outs =>
    cases h
    refine foldl_inv (sameShape g) _ _ g (sameShape_refl g) ?_
    intro acc i _ hacc
    refine foldl_inv (fun h2 => sameShape g h2) _ _ acc hacc ?_
    intro acc2 j _ hacc2
    by_cases hij : i = j
    · simpa [hij] using sameShape_trans hacc2 (sameShape_addGrad acc2 _ _)
    · simpa [hij] using sameShape_trans hacc2 (sameShape_addGrad acc2 _ _)

/-- Generic invariant preservation through `runSteps`. -/
theorem runSteps_inv (P : Graph → Prop) :
    ∀ (l : List Nat) (g g' : Graph), Value.runSteps l g = .ok g' → P g →
      (∀ cur next w, w ∈ l → P cur →
        Value.applyStep cur (stepOf cur w) = .ok next → P next) →
      P g' := by
  intro l
  induction l with
  | nil => intro g g' h hp _; cases h; exact hp
  | cons w rest ih =>
    intro g g' h hp hstep
    cases hs : Value.applyStep g (stepOf g w) with
    | error e => simp [Value.runSteps, hs] at h
    | ok g1 =>
      simp only [Value.runSteps, hs] at h
      exact ih g1 g' h (hstep g g1 w (List.mem_cons_self w rest) hp hs)
        (fun cur next v hv => hstep cur next v (List.mem_cons_of_mem w hv))

theorem runSteps_sameShape (l : List Nat) (g g' : Graph)
    (h : Value.runSteps l g = .ok g') : sameShape g g' :=
  runSteps_inv (sameShape g) l g g' h (sameShape_refl g)
    (fun cur next w _ hp hs =>
      sameShape_trans hp (applyStep_sameShape cur next _ hs))

theorem backward_sameShape (g : Graph) (r : Nat) (g' : Graph)
    (h : Value.backward g r = .ok g') : sameShape g g' :=
  sameShape_trans (sameShape_updGrad g r _)
    (runSteps_sameShape _ _ _ h)

theorem getD_mem {l : List Nat} {j : Nat} (h : j < l.length) (d : Nat) :
    l.getD j d ∈ l := by
  rw [List.getD_eq_getElem l d h]
  exact List.getElem_mem h

/-- A step whose write set avoids `x` leaves `x`'s grad unchanged. -/
theorem gradOf_applyStep_not_written (g g' : Graph) (s : BStep) (x : Nat)
    (hx : x ∉ stepWrites s) (h : Value.applyStep g s = .ok g') :
    gradOf g' x = gradOf g x := by
  cases s with
  | noop => cases h; rfl
  | add a b out =>
    simp only [stepWrites, List.mem_cons, not_or] at hx
    cases h
    rw [gradOf_addGrad_ne _ _ _ _ (by simpa using hx.2.1),
      gradOf_addGrad_ne _ _ _ _ hx.1]
  | mul a b out =>
    simp only [stepWrites, List.mem_cons, not_or] at hx
    cases h
    rw [gradOf_addGrad_ne _ _ _ _ (by simpa using hx.2.1),
      gradOf_addGrad_ne _ _ _ _ hx.1]
  | pow a n out =>
    simp only [stepWrites, List.mem_singleton] at hx
    by_cases hc : dataOf g a = 0 ∧ n - 1 < 0
    · simp [Value.applyStep, hc] at h
    · simp only [Value.applyStep, if_neg hc] at h
      cases h
      rw [gradOf_addGrad_ne _ _ _ _ hx]
  | relu a out =>
    simp only [stepWrites, List.mem_singleton] at hx
    cases h
    rw [gradOf_addGrad_ne _ _ _ _ hx]
  | tanh a out t =>
    simp only [stepWrites, List.mem_singleton] at hx
    cases h
    rw [gradOf_addGrad_ne _ _ _ _ hx]
  | softmaxStep ins outs =>
    simp only [stepWrites] at hx
    cases h
    refine foldl_inv (fun acc => gradOf acc x = gradOf g x) _ _ g rfl ?_
    intro acc i hi hacc
    refine foldl_inv (fun acc2 => gradOf acc2 x = gradOf g x) _ _ acc hacc ?_
    intro acc2 j hj hacc2
    have hjlen : j < ins.length := List.mem_range.mp hj
    have hne : x ≠ ins.getD j 0 := fun he => hx (he ▸ getD_mem hjlen 0)
    by_cases hij : i = j
    · rw [if_pos hij, gradOf_addGrad_ne _ _ _ _ hne, hacc2]
    · rw [if_neg hij, gradOf_addGrad_ne _ _ _ _ hne, hacc2]

/-! ### Well-formedness is preserved by the constructors -/

theorem wf_push (g : Graph) (e : NodeRec) (hWF : WF g)
    (hprev : ∀ p ∈ e.prev, p < g.length)
    (hw : ∀ x ∈ stepWrites e.step, x < g.length) : WF (g ++ [e]) := by
  intro i hi
  rw [List.length_append, List.length_singleton] at hi
  rcases Nat.lt_succ_iff_lt_or_eq.mp hi with h | h
  · have hold := hWF i h
    constructor
    · intro p hp
      rw [prevOf, nodeOf_append_lt g [e] i h] at hp
      exact hold.1 p hp
    · intro y hy
      rw [stepOf, nodeOf_append_lt g [e] i h] at hy
      exact hold.2 y hy
  · subst h
    constructor
    · intro p hp
      rw [prevOf, nodeOf_append_self g e] at hp
      exact hprev p hp
    · intro y hy
      rw [stepOf, nodeOf_append_self g e] at hy
      exact hw y hy

theorem wf_add (g : Graph) (a b : Nat) (hWF : WF g) (ha : a < g.length)
    (hb : b < g.length) : WF (Value.add g a b).1 := by
  refine wf_push g _ hWF ?_ ?_
  · intro p hp
    have hm := (mem_pySet [a, b] p).mp hp
    simp only [List.mem_cons, List.mem_singleton, List.not_mem_nil,
      or_false] at hm
    rcases hm with h | h
    · exact h ▸ ha
    · exact h ▸ hb
  · intro y hy
    simp only [stepWrites, List.mem_cons, List.mem_singleton,
      List.not_mem_nil, or_false] at hy
    rcases hy with h | h
    · exact h ▸ ha
    · exact h ▸ hb

/-! ### Reachability and ordered lists -/

theorem reach_le (g : Graph) (hWF : WF g) {v x : Nat} (h : Reach g v x) :
    v < g.length → x ≤ v ∧ x < g.length := by
  induction h with
  | refl w => exact fun hw => ⟨Nat.le_refl w, hw⟩
  | head hp _ ih =>
    intro hv
    have hpv := (hWF _ hv).1 _ hp
    obtain ⟨h1, h2⟩ := ih (Nat.lt_trans hpv hv)
    exact ⟨Nat.le_trans h1 (Nat.le_of_lt hpv), h2⟩

theorem reach_cases (g : Graph) (v x : Nat) (h : Reach g v x) :
    x = v ∨ ∃ p ∈ prevOf g v, Reach g p x := by
  cases h with
  | refl => exact Or.inl rfl
  | head hp hr => exact Or.inr ⟨_, hp, hr⟩

theorem Ordered.closed {g : Graph} {l : List Nat} (h : Ordered g l) :
    ∀ w ∈ l, ∀ p ∈ prevOf g w, p ∈ l := by
  induction h with
  | nil => intro w hw; simp at hw
  | snoc _ hp ih =>
    intro w hw q hq
    rcases List.mem_append.mp hw with hw | hw
    · exact List.mem_append_left _ (ih w hw q hq)
    · rw [List.mem_singleton] at hw
      subst hw
      exact List.mem_append_left _ (hp q hq)

theorem reach_mem_of_closed {g : Graph} {l : List Nat}
    (hc : ∀ w ∈ l, ∀ p ∈ prevOf g w, p ∈ l) {a x : Nat} (h : Reach g a x) :
    a ∈ l → x ∈ l := by
  induction h with
  | refl => exact id
  | head hp _ ih => exact fun ha => ih (hc _ ha _ hp)

theorem Ordered.parents_take {g : Graph} {L : List Nat} (h : Ordered g L) :
    ∀ i, (hi : i < L.length) →
      ∀ p ∈ prevOf g (L.get ⟨i, hi⟩), p ∈ L.take i := by
  induction h with
  | nil => intro i hi; simp at hi
  | @snoc l v _ hp ih =>
    intro i hi
    have hi' : i < l.length + 1 := by simpa using hi
    rcases Nat.lt_succ_iff_lt_or_eq.mp hi' with hcase | hcase
    · have hget : (l ++ [v]).get ⟨i, hi⟩ = l.get ⟨i, hcase⟩ := by
        simp only [List.get_eq_getElem]
        exact List.getElem_append_left hcase
      have htake : (l ++ [v]).take i = l.take i :=
        List.take_append_of_le_length (Nat.le_of_lt hcase)
      rw [hget, htake]
      exact ih i hcase
    · subst hcase
      have hget : (l ++ [v]).get ⟨l.length, hi⟩ = v := by
        simp [List.get_eq_getElem]
      have htake : (l ++ [v]).take l.length = l := List.take_left l [v]
      rw [hget, htake]
      exact hp


/-- Main correctness lemma for the depth-first traversal. -/
theorem dfs_main (g : Graph) (hWF : WF g) :
    ∀ (fuel : List NodeRec) (v : Nat) (st : List Nat × List Nat)
      (pend : List Nat),
      v < g.length → v < fuel.length → (∀ x ∈ pend, v < x) →
      GoodSt g pend st →
      GoodSt g pend (Value.dfs g fuel v st) ∧
      v ∈ (Value.dfs g fuel v st).2 ∧
      (∃ d, (Value.dfs g fuel v st).2 = st.2 ++ d) ∧
      (∀ x ∈ st.1, x ∈ (Value.dfs g fuel v st).1) ∧
      (∀ x ∈ (Value.dfs g fuel v st).1, x ∈ st.1 ∨ Reach g v x) := by
  intro fuel
  induction fuel with
  | nil =>
    intro v st pend _ hf
    exact absurd hf (by simp)
  | cons e fuel ih =>
    intro v st pend hvlen hvf hpend hst
    obtain ⟨hnodup, hord, hchar, hdisj⟩ := hst
    by_cases hv : v ∈ st.1
    · have heq : Value.dfs g (e :: fuel) v st = st := by
        simp [Value.dfs, hv]
      rw [heq]
      refine ⟨⟨hnodup, hord, hchar, hdisj⟩, ?_, ⟨[], by simp⟩,
        fun x hx => hx, fun x hx => Or.inl hx⟩
      rcases (hchar v).mp hv with h | h
      · exact h
      · exact absurd (hpend v h) (Nat.lt_irrefl v)
    · have hvf' : v ≤ fuel.length := by
        simpa [Nat.lt_succ_iff] using hvf
      -- the traversal state after pushing v onto the open stack
      have hst0 : GoodSt g (v :: pend) (v :: st.1, st.2) := by
        refine ⟨hnodup, hord, ?_, ?_⟩
        · intro x
          constructor
          · intro hx
            rcases List.mem_cons.mp hx with h | h
            · exact Or.inr (h ▸ List.mem_cons_self v pend)
            · rcases (hchar x).mp h with h2 | h2
              · exact Or.inl h2
              · exact Or.inr (List.mem_cons_of_mem v h2)
          · intro hx
            rcases hx with h | h
            · exact List.mem_cons_of_mem v ((hchar x).mpr (Or.inl h))
            · rcases List.mem_cons.mp h with h2 | h2
              · exact h2 ▸ List.mem_cons_self v st.1
              · exact List.mem_cons_of_mem v ((hchar x).mpr (Or.inr h2))
        · intro x hx hc
          rcases List.mem_cons.mp hc with h | h
          · exact hv (h ▸ (hchar x).mpr (Or.inl hx) : v ∈ st.1)
          · exact hdisj x hx h
      -- the parent loop
      have fold : ∀ (l : List Nat), (∀ p ∈ l, p < v) →
          ∀ st' : List Nat × List Nat, GoodSt g (v :: pend) st' →
          GoodSt g (v :: pend)
            (l.foldl (fun acc p => Value.dfs g fuel p acc) st') ∧
          (∀ p ∈ l,
            p ∈ (l.foldl (fun acc p => Value.dfs g fuel p acc) st').2) ∧
          (∃ d, (l.foldl (fun acc p => Value.dfs g fuel p acc) st').2 =
            st'.2 ++ d) ∧
          (∀ x ∈ st'.1,
            x ∈ (l.foldl (fun acc p => Value.dfs g fuel p acc) st').1) ∧
          (∀ x ∈ (l.foldl (fun acc p => Value.dfs g fuel p acc) st').1,
            x ∈ st'.1 ∨ ∃ p ∈ l, Reach g p x) := by
        intro l
        induction l with
        | nil =>
          intro _ st' hst'
          exact ⟨hst', by simp, ⟨[], by simp⟩, fun x hx => hx,
            fun x hx => Or.inl hx⟩
        | cons p ps ihl =>
          intro hl st' hst'
          have hpv : p < v := hl p (List.mem_cons_self p ps)
          have hplen : p < g.length := Nat.lt_trans hpv hvlen
          have hpf : p < fuel.length := Nat.lt_of_lt_of_le hpv hvf'
          have hppend : ∀ x ∈ v :: pend, p < x := by
            intro x hx
            rcases List.mem_cons.mp hx with h | h
            · exact h ▸ hpv
            · exact Nat.lt_trans hpv (hpend x h)
          obtain ⟨D1, D2, D3, D4, D5⟩ :=
            ih p st' (v :: pend) hplen hpf hppend hst'
          obtain ⟨F1, F2, F3, F4, F5⟩ :=
            ihl (fun q hq => hl q (List.mem_cons_of_mem p hq))
              (Value.dfs g fuel p st') D1
          rw [List.foldl_cons]
          refine ⟨F1, ?_, ?_, ?_, ?_⟩
          · intro q hq
            rcases List.mem_cons.mp hq with h | h
            · obtain ⟨d, hd⟩ := F3
              rw [hd]
              exact List.mem_append_left _ (h ▸ D2)
            · exact F2 q h
          · obtain ⟨d1, hd1⟩ := D3
            obtain ⟨d2, hd2⟩ := F3
            exact ⟨d1 ++ d2, by rw [hd2, hd1, List.append_assoc]⟩
          · intro x hx
            exact F4 _ (D4 x hx)
          · intro x hx
            rcases F5 x hx with h | ⟨q, hq, hr⟩
            · rcases D5 x h with h2 | h2
              · exact Or.inl h2
              · exact Or.inr ⟨p, List.mem_cons_self p ps, h2⟩
            · exact Or.inr ⟨q, List.mem_cons_of_mem p hq, hr⟩
      obtain ⟨⟨f_nodup, f_ord, f_char, f_disj⟩, F2, F3, F4, F5⟩ :=
        fold (prevOf g v) ((hWF v hvlen).1) (v :: st.1, st.2) hst0
      have hgoal : Value.dfs g (e :: fuel) v st =
          (((prevOf g v).foldl (fun acc p => Value.dfs g fuel p acc)
              (v :: st.1, st.2)).1,
           ((prevOf g v).foldl (fun acc p => Value.dfs g fuel p acc)
              (v :: st.1, st.2)).2 ++ [v]) := by
        simp [Value.dfs, hv]
      rw [hgoal]
      set st1 := (prevOf g v).foldl (fun acc p => Value.dfs g fuel p acc)
        (v :: st.1, st.2) with hst1
      have hvnotin : v ∉ st1.2 := fun hc =>
        f_disj v hc (List.mem_cons_self v pend)
      refine ⟨⟨?_, Ordered.snoc f_ord F2, ?_, ?_⟩, ?_, ?_, ?_, ?_⟩
      · -- Nodup
        refine List.nodup_append.mpr ⟨f_nodup, List.nodup_singleton v, ?_⟩
        intro x hx hx2
        rw [List.mem_singleton] at hx2
        exact f_disj x hx (hx2 ▸ List.mem_cons_self v pend)
      · -- characterization of the visited set
        intro x
        rw [List.mem_append, List.mem_singleton]
        constructor
        · intro hx
          rcases (f_char x).mp hx with h | h
          · exact Or.inl (Or.inl h)
          · rcases List.mem_cons.mp h with h2 | h2
            · exact Or.inl (Or.inr h2)
            · exact Or.inr h2
        · intro hx
          apply (f_char x).mpr
          rcases hx with (h | h) | h
          · exact Or.inl h
          · exact Or.inr (h ▸ List.mem_cons_self v pend)
          · exact Or.inr (List.mem_cons_of_mem v h)
      · -- emitted nodes are not open
        intro x hx hc
        rcases List.mem_append.mp hx with h | h
        · exact f_disj x h (List.mem_cons_of_mem v hc)
        · rw [List.mem_singleton] at h
          subst h
          exact Nat.lt_irrefl x (hpend x hc)
      · exact List.mem_append_right _ (List.mem_singleton.mpr rfl)
      · obtain ⟨d, hd⟩ := F3
        exact ⟨d ++ [v], by rw [← List.append_assoc, ← hd]⟩
      · intro x hx
        exact F4 x (List.mem_cons_of_mem v hx)
      · intro x hx
        rcases F5 x hx with h | ⟨p, hp, hr⟩
        · rcases List.mem_cons.mp h with h2 | h2
          · exact Or.inr (by rw [h2]; exact Reach.refl v)
          · exact Or.inl h2
        · exact Or.inr (Reach.head hp hr)

theorem topoList_spec (g : Graph) (r : Nat) (hWF : WF g)
    (hr : r < g.length) :
    (Value.topoList g r).Nodup ∧ Ordered g (Value.topoList g r) ∧
    (∀ x, x ∈ Value.topoList g r ↔ Reach g r x) := by
  have hinit : GoodSt g [] ([], []) :=
    ⟨List.nodup_nil, Ordered.nil, by simp, by simp⟩
  obtain ⟨⟨hnodup, hord, hchar, _⟩, hrmem, _, _, hreach⟩ :=
    dfs_main g hWF g r ([], []) [] hr hr (by simp) hinit
  refine ⟨hnodup, hord, fun x => ⟨?_, ?_⟩⟩
  · intro hx
    have hvis : x ∈ (Value.dfs g g r ([], [])).1 := (hchar x).mpr (Or.inl hx)
    rcases hreach x hvis with h | h
    · simp at h
    · exact h
  · intro hx
    exact reach_mem_of_closed hord.closed hx hrmem

/-- Claim C2. `backward` first builds a linear order of the reachable ancestor
nodes in which every node appears exactly once (visited is keyed by node
identity, i.e. arena index) and strictly after all of its parents; it then
sets the root's grad to 1.0 and invokes each node's backward step in the
exact reverse of that order. -/
theorem backward_topological_replay (g : Graph) (r : Nat) (hWF : WF g)
    (hr : r < g.length) :
    (Value.topoList g r).Nodup ∧
    (∀ x, x ∈ Value.topoList g r ↔ Reach g r x) ∧
    (∀ i, (hi : i < (Value.topoList g r).length) →
      ∀ p ∈ prevOf g ((Value.topoList g r).get ⟨i, hi⟩),
        p ∈ (Value.topoList g r).take i) ∧
    Value.backward g r =
      Value.runSteps (Value.topoList g r).reverse (setGrad g r 1) := by
  obtain ⟨h1, h2, h3⟩ := topoList_spec g r hWF hr
  exact ⟨h1, h3, h2.parents_take, rfl⟩

/-- Witness for C2 on the concrete graph `x = Value(3); y = x + x`. -/
theorem backward_topological_replay_inst :
    (Value.topoList (Value.add (Value.value [] 3).1 0 0).1 1).Nodup :=
  (backward_topological_replay (Value.add (Value.value [] 3).1 0 0).1 1
    (by decide) (by decide)).1

theorem runSteps_append (l1 l2 : List Nat) (g : Graph) :
    Value.runSteps (l1 ++ l2) g =
      match Value.runSteps l1 g with
      | .error e => .error e
      | .ok g1 => Value.runSteps l2 g1 := by
  induction l1 generalizing g with
  | nil => simp [Value.runSteps]
  | cons w rest ih =>
    cases hs : Value.applyStep g (stepOf g w) with
    | error e => simp [Value.runSteps, hs]
    | ok g1 => simp [Value.runSteps, hs, ih]

/-- Claim C3. Gradients accumulate additively: for any well-formed graph and
any node `x` with zero grad, building `y = x + x` and running `backward`
on `y` leaves `x.grad == 2.0` — each of the two operand contributions of
the add step is summed into the same node. -/
theorem add_self_backward_grad_two (g : Graph) (x : Nat) (hWF : WF g)
    (hx : x < g.length) (hg : gradOf g x = 0) (g2 : Graph)
    (hb : Value.backward (Value.add g x x).1 (Value.add g x x).2 = .ok g2) :
    gradOf g2 x = 2 := by
  set gA : Graph := (Value.add g x x).1 with hgA
  have hlenA : gA.length = g.length + 1 := by simp [hgA, Value.add]
  have hWFA : WF gA := wf_add g x x hWF hx hx
  have hxA : x < gA.length := by omega
  have hyA : g.length < gA.length := by omega
  have hxy : x ≠ g.length := Nat.ne_of_lt hx
  have hprevy : prevOf gA g.length = [x] := by
    show prevOf (g ++ [_]) g.length = [x]
    rw [prevOf, nodeOf_append_self]
    exact pySet_pair_self x
  have hstepy : stepOf gA g.length = .add x x g.length := by
    show stepOf (g ++ [_]) g.length = _
    rw [stepOf, nodeOf_append_self]
  obtain ⟨hnodup, _, hmem⟩ := topoList_spec gA g.length hWFA hyA
  -- every traversed node is the fresh add node or has id at most x
  have hbound : ∀ w ∈ Value.topoList gA g.length, w = g.length ∨ w ≤ x := by
    intro w hw
    rcases reach_cases gA g.length w ((hmem w).mp hw) with h | ⟨p, hp, hr⟩
    · exact Or.inl h
    · rw [hprevy, List.mem_singleton] at hp
      subst hp
      exact Or.inr (reach_le gA hWFA hr hxA).1
  have hymem : g.length ∈ Value.topoList gA g.length :=
    (hmem g.length).mpr (Reach.refl g.length)
  have hymem' : g.length ∈ (Value.topoList gA g.length).reverse :=
    List.mem_reverse.mpr hymem
  obtain ⟨A, B, hsplit⟩ := List.append_of_mem hymem'
  have hndrev : (A ++ g.length :: B).Nodup := by
    rw [← hsplit]
    exact List.nodup_reverse.mpr hnodup
  obtain ⟨_, hndB, hdisjAB⟩ := List.nodup_append.mp hndrev
  have hynA : g.length ∉ A := fun hc =>
    hdisjAB hc (List.mem_cons_self _ _)
  have hynB : g.length ∉ B := (List.nodup_cons.mp hndB).1
  have hboundA : ∀ w ∈ A, w ≤ x := by
    intro w hw
    have hwt : w ∈ Value.topoList gA g.length := by
      have : w ∈ (Value.topoList gA g.length).reverse := by
        rw [hsplit]
        exact List.mem_append_left _ hw
      exact List.mem_reverse.mp this
    rcases hbound w hwt with h | h
    · exact absurd (h ▸ hw) hynA
    · exact h
  have hboundB : ∀ w ∈ B, w ≤ x := by
    intro w hw
    have hwt : w ∈ Value.topoList gA g.length := by
      have : w ∈ (Value.topoList gA g.length).reverse := by
        rw [hsplit]
        exact List.mem_append_right _ (List.mem_cons_of_mem _ hw)
      exact List.mem_reverse.mp this
    rcases hbound w hwt with h | h
    · exact absurd (h ▸ hw) hynB
    · exact h
  -- a step owned by a node of id at most x neither writes x nor the root
  have hpres : ∀ cur next w, w ≤ x → sameShape gA cur →
      Value.applyStep cur (stepOf cur w) = .ok next →
      gradOf next x = gradOf cur x ∧ gradOf next g.length =
        gradOf cur g.length ∧ sameShape gA next := by
    intro cur next w hwx hcur hstep
    have hwlen : w < gA.length := by omega
    have hstepw : stepOf cur w = stepOf gA w := (hcur.2 w).2.2.2
    rw [hstepw] at hstep
    have hwr := (hWFA w hwlen).2
    have hxnw : x ∉ stepWrites (stepOf gA w) := fun hc => by
      have := hwr x hc
      omega
    have hynw : g.length ∉ stepWrites (stepOf gA w) := fun hc => by
      have := hwr g.length hc
      omega
    exact ⟨gradOf_applyStep_not_written cur next _ x hxnw hstep,
      gradOf_applyStep_not_written cur next _ g.length hynw hstep,
      sameShape_trans hcur (applyStep_sameShape cur next _ hstep)⟩
  -- unpack the run
  have hb' : Value.runSteps (A ++ g.length :: B) (setGrad gA g.length 1) =
      .ok g2 := by
    have hb2 : Value.backward gA g.length = .ok g2 := hb
    rw [Value.backward, hsplit] at hb2
    exact hb2
  rw [runSteps_append] at hb'
  set g0 : Graph := setGrad gA g.length 1 with hg0
  cases hA : Value.runSteps A g0 with
  | error e => rw [hA] at hb'; simp at hb'
  | ok gm =>
    rw [hA] at hb'
    -- phase A: grads of x and of the root are untouched
    have hP0 : sameShape gA g0 ∧ gradOf g0 x = 0 ∧
        gradOf g0 g.length = 1 := by
      refine ⟨sameShape_updGrad gA g.length _, ?_, ?_⟩
      · rw [hg0, gradOf_setGrad_ne gA g.length x 1 hxy]
        show gradOf (g ++ [_]) x = 0
        rw [gradOf, nodeOf_append_lt g _ x hx]
        exact hg
      · exact gradOf_setGrad_self gA g.length 1 hyA
    have hPm : sameShape gA gm ∧ gradOf gm x = 0 ∧
        gradOf gm g.length = 1 := by
      refine runSteps_inv
        (fun c => sameShape gA c ∧ gradOf c x = 0 ∧ gradOf c g.length = 1)
        A g0 gm hA hP0 ?_
      intro cur next w hw hcur hstep
      obtain ⟨e1, e2, e3⟩ := hpres cur next w (hboundA w hw) hcur.1 hstep
      exact ⟨e3, by rw [e1]; exact hcur.2.1, by rw [e2]; exact hcur.2.2⟩
    -- phase y: the add step fires, contributing out.grad twice
    cases hy : Value.applyStep gm (stepOf gm g.length) with
    | error e =>
      simp only [Value.runSteps, hy] at hb'
      exact Except.noConfusion hb'
    | ok gm2 =>
      simp only [Value.runSteps, hy] at hb'
      have hstepy' : stepOf gm g.length = .add x x g.length := by
        rw [(hPm.1.2 g.length).2.2.2, hstepy]
      rw [hstepy'] at hy
      simp only [Value.applyStep, Except.ok.injEq] at hy
      have hxlen : x < gm.length := by
        rw [hPm.1.1]; omega
      have hgm2 : gradOf gm2 x = 2 := by
        rw [← hy]
        rw [gradOf_addGrad_self _ x _
          (by simpa [addGrad, updGrad_length] using hxlen)]
        rw [gradOf_addGrad_self _ x _ hxlen]
        rw [gradOf_addGrad_ne gm x g.length _ (Nat.ne_of_lt hx).symm]
        rw [hPm.2.1, hPm.2.2]
        norm_num
      have hgm2shape : sameShape gA gm2 := by
        rw [← hy]
        exact sameShape_trans hPm.1
          (sameShape_trans (sameShape_addGrad gm x _) (sameShape_addGrad _ x _))
      -- phase B: nothing writes x any more
      have hfin : sameShape gA g2 ∧ gradOf g2 x = 2 := by
        refine runSteps_inv (fun c => sameShape gA c ∧ gradOf c x = 2)
          B gm2 g2 hb' ⟨hgm2shape, hgm2⟩ ?_
        intro cur next w hw hcur hstep
        obtain ⟨e1, _, e3⟩ := hpres cur next w (hboundB w hw) hcur.1 hstep
        exact ⟨e3, by rw [e1]; exact hcur.2⟩
      exact hfin.2

/-- Witness for C3: `x = Value(3); y = x + x; y.backward()` gives
`x.grad = 2`. -/
theorem add_self_backward_grad_two_inst :
    gradOf [⟨3, 2, [], "", .noop⟩, ⟨6, 1, [0], "+", .add 0 0 1⟩] 0 = 2 :=
  add_self_backward_grad_two [⟨3, 0, [], "", .noop⟩] 0 (by decide)
    (by decide) rfl _ (by
      norm_num [Value.backward, Value.topoList, Value.dfs, Value.add,
        Value.applyStep, Value.runSteps, pySet, pySetAux, prevOf, stepOf,
        gradOf, dataOf, nodeOf, setGrad, addGrad, updGrad])

/-- Claim C10. `backward` mutates only `grad` fields: lengths, forward
values, parent sets, op tags and backward steps are untouched.  Moreover
no grad is reset: on `x = Value(3); y = x + x`, a first `backward` leaves
`x.grad = 2`, and a second call on the same root accumulates to
`x.grad = 4` while the root's grad is overwritten back to 1. -/
theorem backward_mutates_only_grads (g : Graph) (r : Nat) (g1 : Graph)
    (hb : Value.backward g r = .ok g1) :
    sameShape g g1 ∧
    (Value.backward (Value.add (Value.value [] 3).1 0 0).1 1 =
       .ok [⟨3, 2, [], "", .noop⟩, ⟨6, 1, [0], "+", .add 0 0 1⟩] ∧
     Value.backward [⟨3, 2, [], "", .noop⟩, ⟨6, 1, [0], "+", .add 0 0 1⟩] 1 =
       .ok [⟨3, 4, [], "", .noop⟩, ⟨6, 1, [0], "+", .add 0 0 1⟩]) := by
  refine ⟨backward_sameShape g r g1 hb, ?_, ?_⟩
  · norm_num [Value.backward, Value.topoList, Value.dfs, Value.add,
      Value.value, Value.applyStep, Value.runSteps, pySet, pySetAux, prevOf,
      stepOf, gradOf, dataOf, nodeOf, setGrad, addGrad, updGrad]
  · norm_num [Value.backward, Value.topoList, Value.dfs, Value.applyStep,
      Value.runSteps, pySet, pySetAux, prevOf, stepOf, gradOf, dataOf,
      nodeOf, setGrad, addGrad, updGrad]

/-- Witness for C10 (empty graph, trivial backward call). -/
theorem backward_mutates_only_grads_inst : sameShape ([] : Graph) [] :=
  (backward_mutates_only_grads [] 0 [] rfl).1

/-- Claim C5. `relu` has forward value `max(0, x.value)`; its backward step
adds `out.grad` to `x.grad` when `x.value > 0` (strictly) and adds exactly
0 otherwise; `relu(Value(0.0)).backward()` leaves the input grad at 0. -/
theorem relu_forward_and_gradient (g : Graph) (a out : Nat)
    (ha : a < g.length) :
    dataOf (Value.relu g a).1 (Value.relu g a).2 = max 0 (dataOf g a) ∧
    (∀ g', Value.applyStep g (.relu a out) = .ok g' →
      (0 < dataOf g a → gradOf g' a = gradOf g a + gradOf g out) ∧
      (¬ 0 < dataOf g a → gradOf g' a = gradOf g a)) ∧
    Value.backward (Value.relu (Value.value [] 0).1 0).1 1 =
      .ok [⟨0, 0, [], "", .noop⟩, ⟨0, 1, [0], "ReLU", .relu 0 1⟩] := by
  refine ⟨?_, ?_, ?_⟩
  · show dataOf (g ++ [_]) g.length = _
    rw [dataOf, nodeOf_append_self]
  · intro g' h
    simp only [Value.applyStep, Except.ok.injEq] at h
    constructor
    · intro hpos
      rw [← h, gradOf_addGrad_self g a _ ha, if_pos hpos, one_mul]
    · intro hneg
      rw [← h, gradOf_addGrad_self g a _ ha, if_neg hneg, zero_mul, add_zero]
  · norm_num [Value.backward, Value.topoList, Value.dfs, Value.relu,
      Value.value, Value.applyStep, Value.runSteps, pySet, pySetAux, prevOf,
      stepOf, gradOf, dataOf, nodeOf, setGrad, addGrad, updGrad]

/-- Witness for C5. -/
theorem relu_forward_and_gradient_inst :
    dataOf (Value.relu [⟨5, 0, [], "", .noop⟩] 0).1
        (Value.relu [⟨5, 0, [], "", .noop⟩] 0).2 =
      max 0 (dataOf [⟨5, 0, [], "", .noop⟩] 0) :=
  (relu_forward_and_gradient [⟨5, 0, [], "", .noop⟩] 0 0 (by decide)).1

/-- Claim C6. Dividing by a node whose value is zero fails with the
DivisionByZero condition already while constructing the expression (the
`0 ** -1` forward evaluation inside `other**-1`), so no node is allocated
and the existing graph is returned unchanged inside the error;
nothing is deferred to backward time. -/
theorem div_by_zero_raises_at_construction (g : Graph) (a b : Nat)
    (hb : dataOf g b = 0) :
    Value.div g a b = .error .divisionByZero := by
  have hp : Value.pow g b (.num (-1)) = .error .divisionByZero := by
    simp [Value.pow, hb]
  simp [Value.div, hp]

/-- Witness for C6. -/
theorem div_by_zero_raises_at_construction_inst :
    Value.div [⟨0, 0, [], "", .noop⟩] 0 0 = .error .divisionByZero :=
  div_by_zero_raises_at_construction [⟨0, 0, [], "", .noop⟩] 0 0 rfl

/-- Counterexample to C7 as stated: with the plain numeric exponent `-1`
on a zero-valued node, `__pow__` does not succeed — it raises
ZeroDivisionError at construction time. -/
theorem pow_numeric_exponent_can_fail_cx :
    Value.pow [⟨0, 0, [], "", .noop⟩] 0 (.num (-1)) =
      .error .divisionByZero := by
  simp [Value.pow, dataOf, nodeOf]

/-- Claim C7 (amended). A node exponent fails with InvalidOperand at
construction.  A plain numeric exponent `n` succeeds — unless the base is
0 and `n < 0`, which raises DivisionByZero at construction — with forward
value `a.value ^ n`, parent `a`, and a backward step contributing
`n * a.value^(n-1) * out.grad` to `a.grad`; that step itself raises
DivisionByZero in the residual case base = 0 with `n - 1 < 0`. -/
theorem pow_spec (g : Graph) (a : Nat) (ha : a < g.length) (i : Nat) (n : ℤ)
    (out : Nat) :
    Value.pow g a (.node i) = .error .invalidOperand ∧
    ((dataOf g a = 0 ∧ n < 0) →
      Value.pow g a (.num n) = .error .divisionByZero) ∧
    (¬ (dataOf g a = 0 ∧ n < 0) →
      ∃ g1, Value.pow g a (.num n) = .ok (g1, g.length) ∧
        dataOf g1 g.length = dataOf g a ^ n ∧
        prevOf g1 g.length = [a] ∧
        stepOf g1 g.length = .pow a n g.length) ∧
    ((dataOf g a = 0 ∧ n - 1 < 0) →
      Value.applyStep g (.pow a n out) = .error .divisionByZero) ∧
    (∀ g', ¬ (dataOf g a = 0 ∧ n - 1 < 0) →
      Value.applyStep g (.pow a n out) = .ok g' →
      gradOf g' a =
        gradOf g a + (n : ℚ) * dataOf g a ^ (n - 1) * gradOf g out) := by
  refine ⟨rfl, ?_, ?_, ?_, ?_⟩
  · intro h
    simp only [Value.pow]
    rw [if_pos h]
  · intro h
    simp only [Value.pow]
    rw [if_neg h]
    refine ⟨_, rfl, ?_, ?_, ?_⟩
    · rw [dataOf, nodeOf_append_self]
    · rw [prevOf, nodeOf_append_self]
      exact pySet_single a
    · rw [stepOf, nodeOf_append_self]
  · intro h
    simp only [Value.applyStep]
    rw [if_pos h]
  · intro g' h hstep
    simp only [Value.applyStep, if_neg h, Except.ok.injEq] at hstep
    rw [← hstep, gradOf_addGrad_self g a _ ha]

/-- Witness for C7's amended statement. -/
theorem pow_spec_inst :
    Value.pow [⟨2, 0, [], "", .noop⟩] 0 (.node 0) =
      .error .invalidOperand :=
  (pow_spec [⟨2, 0, [], "", .noop⟩] 0 (by decide) 0 3 0).1

/-- Claim C8. `softmax` on the empty sequence fails with the EmptyInput
condition (Python's `max()` on an empty sequence) synchronously, producing
no output nodes and touching no existing node. -/
theorem softmax_empty_raises (expq : ℚ → ℚ) (g : Graph) :
    Value.softmax expq g [] = .error .emptyInput := rfl

theorem sum_map_div (l : List ℚ) (s : ℚ) :
    (l.map (fun x => x / s)).sum = l.sum / s := by
  induction l with
  | nil => simp
  | cons x l ih => simp [ih, add_div]

theorem map_dataOf_outIds (g : Graph) (news : List NodeRec) (n : Nat)
    (h : news.length = n) :
    ((List.range n).map (fun k => g.length + k)).map (dataOf (g ++ news)) =
      news.map (fun e => e.data) := by
  subst h
  apply List.ext_getElem
  · simp
  · intro k h1 h2
    simp only [List.getElem_map, List.getElem_range]
    have hk : k < news.length := by simpa using h2
    rw [dataOf, nodeOf_append_right g news k, nodeOf,
      List.getD_eq_getElem news defRec hk]

/-- The forward values produced by a (non-empty) softmax call: each output
stores `exp(v.data - max) / sum_exps`. -/
theorem softmax_outs_data (expq : ℚ → ℚ) (g : Graph) (v0 : Nat)
    (rest : List Nat) :
    ∃ g1 outs, Value.softmax expq g (v0 :: rest) = .ok (g1, outs) ∧
      outs.length = (v0 :: rest).length ∧
      outs.map (dataOf g1) =
        ((v0 :: rest).map (fun v => expq (dataOf g v -
            Value.listMax (dataOf g v0) (rest.map (dataOf g))))).map
          (fun e => e / ((v0 :: rest).map (fun v => expq (dataOf g v -
            Value.listMax (dataOf g v0) (rest.map (dataOf g))))).sum) := by
  refine ⟨_, _, rfl, by simp, ?_⟩
  set ins : List Nat := v0 :: rest with hins
  set m : ℚ := Value.listMax (dataOf g v0) (rest.map (dataOf g)) with hm
  set exps : List ℚ := ins.map (fun v => expq (dataOf g v - m)) with hexps
  set news : List NodeRec := (ins.zip exps).map
    (fun ve => (⟨ve.2 / exps.sum, 0, pySet [ve.1], "softmax",
      .softmaxStep ins ((List.range ins.length).map
        (fun k => g.length + k))⟩ : NodeRec)) with hnews
  have hlexps : exps.length = ins.length := by simp [hexps]
  have hlnews : news.length = ins.length := by simp [hnews, hlexps]
  show ((List.range ins.length).map (fun k => g.length + k)).map
      (dataOf (g ++ news)) = exps.map (fun e => e / exps.sum)
  rw [map_dataOf_outIds g news ins.length hlnews, hnews, List.map_map]
  have h1 : (ins.zip exps).map Prod.snd = exps :=
    List.map_snd_zip ins exps (Nat.le_of_eq hlexps)
  calc (ins.zip exps).map (fun ve => ve.2 / exps.sum)
      = ((ins.zip exps).map Prod.snd).map (fun e => e / exps.sum) := by
        rw [List.map_map]; rfl
    _ = exps.map (fun e => e / exps.sum) := by rw [h1]

/-- Claim C9. For a non-empty input sequence, `softmax` returns a sequence of
the same length whose forward values (computed with the maximum input
subtracted before applying `exp`) sum to exactly 1, for any model of
`math.exp` that is strictly positive; for the equal inputs `[1, 1]` the
outputs are `[1/2, 1/2]`. -/
theorem softmax_sum_one (expq : ℚ → ℚ) (hexp : ∀ q, 0 < expq q) (g : Graph)
    (ins : List Nat) (hne : ins ≠ []) :
    ∃ g1 outs, Value.softmax expq g ins = .ok (g1, outs) ∧
      outs.length = ins.length ∧
      (outs.map (dataOf g1)).sum = 1 ∧
      (∀ gE oE,
        Value.softmax expq [⟨1, 0, [], "", .noop⟩, ⟨1, 0, [], "", .noop⟩]
          [0, 1] = .ok (gE, oE) →
        oE.map (dataOf gE) = [1 / 2, 1 / 2]) := by
  obtain ⟨v0, rest, rfl⟩ := List.exists_cons_of_ne_nil hne
  obtain ⟨g1, outs, heq, hlen, hdata⟩ := softmax_outs_data expq g v0 rest
  have hpos : ∀ (g' : Graph) (w0 : Nat) (wr : List Nat),
      0 < ((w0 :: wr).map (fun v => expq (dataOf g' v -
        Value.listMax (dataOf g' w0) (wr.map (dataOf g'))))).sum := by
    intro g' w0 wr
    apply List.sum_pos
    · intro q hq
      obtain ⟨v, _, rfl⟩ := List.mem_map.mp hq
      exact hexp _
    · simp
  refine ⟨g1, outs, heq, hlen, ?_, ?_⟩
  · rw [hdata, sum_map_div, div_self (ne_of_gt (hpos g v0 rest))]
  · intro gE oE h
    obtain ⟨g1', outs', heq', _, hdata'⟩ := softmax_outs_data expq
      [⟨1, 0, [], "", .noop⟩, ⟨1, 0, [], "", .noop⟩] 0 [1]
    rw [heq'] at h
    have hp := Except.ok.inj h
    have hg : g1' = gE := congrArg Prod.fst hp
    have ho : outs' = oE := congrArg Prod.snd hp
    rw [← hg, ← ho, hdata']
    have he : (0 : ℚ) < expq 0 := by simpa using hexp ((1 : ℚ) - 1)
    norm_num [Value.listMax, dataOf, nodeOf]
    rw [div_eq_iff (ne_of_gt (by linarith))]
    ring

/-- Witness for C9. -/
theorem softmax_sum_one_inst :
    ∃ g1 outs, Value.softmax (fun _ => (1 : ℚ)) [] [0] = .ok (g1, outs) ∧
      outs.length = 1 ∧
      (outs.map (dataOf g1)).sum = 1 ∧
      (∀ gE oE,
        Value.softmax (fun _ => (1 : ℚ))
          [⟨1, 0, [], "", .noop⟩, ⟨1, 0, [], "", .noop⟩] [0, 1] =
          .ok (gE, oE) →
        oE.map (dataOf gE) = [1 / 2, 1 / 2]) :=
  softmax_sum_one (fun _ => 1) (fun _ => one_pos) [] [0] (by simp)

/-- Counterexample to C4 as stated: in `softmax([x0, x1])` the first
output node does not have the second input among its parents — its parent
set is just its own input. -/
theorem softmax_output_missing_parent_cx :
    ∃ gS, Value.softmax (fun _ => (1 : ℚ))
        [⟨1, 0, [], "", .noop⟩, ⟨1, 0, [], "", .noop⟩] [0, 1] =
        .ok (gS, [2, 3]) ∧ (1 : Nat) ∉ prevOf gS 2 := by
  refine ⟨_, rfl, ?_⟩
  decide

/-- Claim C4 (amended). Every primitive constructor allocates a new node
whose parent set is exactly (the set of) its operands; the derived
negate/subtract/divide operations produce a final node whose parents are
the first operand together with the intermediate node they build.  Each
softmax output node, however, records only its own corresponding input as
parent — not all N inputs. -/
theorem node_parents_are_operands (expq tq : ℚ → ℚ) (g : Graph) (a b : Nat)
    (ins : List Nat) (g1 : Graph) (outs : List Nat)
    (hsm : Value.softmax expq g ins = .ok (g1, outs)) :
    prevOf (Value.add g a b).1 (Value.add g a b).2 = pySet [a, b] ∧
    prevOf (Value.mul g a b).1 (Value.mul g a b).2 = pySet [a, b] ∧
    prevOf (Value.relu g a).1 (Value.relu g a).2 = [a] ∧
    prevOf (Value.tanh tq g a).1 (Value.tanh tq g a).2 = [a] ∧
    (∀ (n : ℤ) (g2 : Graph) (j : Nat),
      Value.pow g a (.num n) = .ok (g2, j) → prevOf g2 j = [a]) ∧
    prevOf (Value.neg g a).1 (Value.neg g a).2 = pySet [a, g.length] ∧
    prevOf (Value.sub g a b).1 (Value.sub g a b).2 =
      pySet [a, g.length + 1] ∧
    (∀ (g2 : Graph) (j : Nat), Value.div g a b = .ok (g2, j) →
      prevOf g2 j = pySet [a, g.length]) ∧
    outs.length = ins.length ∧
    (∀ k, (hk : k < outs.length) →
      prevOf g1 (outs.get ⟨k, hk⟩) = [ins.getD k 0]) := by
  have hmul : ∀ (g' : Graph) (u v : Nat),
      prevOf (Value.mul g' u v).1 (Value.mul g' u v).2 = pySet [u, v] :=
    fun g' _ _ => congrArg NodeRec.prev (nodeOf_append_self g' _)
  have hadd : ∀ (g' : Graph) (u v : Nat),
      prevOf (Value.add g' u v).1 (Value.add g' u v).2 = pySet [u, v] :=
    fun g' _ _ => congrArg NodeRec.prev (nodeOf_append_self g' _)
  refine ⟨hadd g a b, hmul g a b, ?_, ?_, ?_, ?_, ?_, ?_, ?_⟩
  · rw [show prevOf (Value.relu g a).1 (Value.relu g a).2 = pySet [a] from
      congrArg NodeRec.prev (nodeOf_append_self g _)]
    exact pySet_single a
  · rw [show prevOf (Value.tanh tq g a).1 (Value.tanh tq g a).2 =
        pySet [a] from congrArg NodeRec.prev (nodeOf_append_self g _)]
    exact pySet_single a
  · intro n g2 j h
    by_cases hc : dataOf g a = 0 ∧ n < 0
    · rw [show Value.pow g a (.num n) = .error .divisionByZero from by
        simp only [Value.pow]; rw [if_pos hc]] at h
      exact Except.noConfusion h
    · simp only [Value.pow, if_neg hc, Except.ok.injEq] at h
      obtain ⟨h1, h2⟩ := Prod.mk.injEq .. |>.mp h
      rw [← h1, ← h2, prevOf, nodeOf_append_self]
      exact pySet_single a
  · exact hmul _ a _
  · have hne : (Value.neg g b).2 = g.length + 1 := by
      simp [Value.neg, Value.mul, Value.value]
    rw [show Value.sub g a b =
        Value.add (Value.neg g b).1 a (Value.neg g b).2 from rfl,
      hadd, hne]
  · intro g2 j h
    cases hp : Value.pow g b (.num (-1)) with
    | error e =>
      simp only [Value.div, hp] at h
      exact Except.noConfusion h
    | ok p =>
      obtain ⟨p1, p2⟩ := p
      have hp2 : p2 = g.length := by
        by_cases hc : dataOf g b = 0 ∧ (-1 : ℤ) < 0
        · rw [show Value.pow g b (.num (-1)) = .error .divisionByZero from by
            simp only [Value.pow]; rw [if_pos hc]] at hp
          exact Except.noConfusion hp
        · simp only [Value.pow, if_neg hc, Except.ok.injEq] at hp
          exact (Prod.mk.injEq .. |>.mp hp).2.symm
      simp only [Value.div, hp, Except.ok.injEq] at h
      have h1 := congrArg Prod.fst h
      have h2 := congrArg Prod.snd h
      simp only at h1 h2
      rw [← h1, ← h2, hmul p1 a p2, hp2]
  · cases hins : ins with
    | nil =>
      rw [hins] at hsm
      exact Except.noConfusion hsm
    | cons v0 rest =>
      rw [hins] at hsm
      have hp := Except.ok.inj hsm
      have hg1 : g1 = _ := (congrArg Prod.fst hp).symm
      have houts : outs =
          (List.range (v0 :: rest).length).map (fun k => g.length + k) :=
        (congrArg Prod.snd hp).symm
      constructor
      · rw [houts]
        simp
      · intro k hk
        have hklen : k < (v0 :: rest).length := by
          rw [houts] at hk
          simpa using hk
        have hget : outs.get ⟨k, hk⟩ = g.length + k := by
          rcases houts with rfl
          simp
        rw [hget, hg1]
        set exps : List ℚ := (v0 :: rest).map (fun v => expq (dataOf g v -
          Value.listMax (dataOf g v0) (rest.map (dataOf g)))) with hexps
        have hlexps : exps.length = (v0 :: rest).length := by simp [hexps]
        have hknews : k < (((v0 :: rest).zip exps).map
            (fun ve => (⟨ve.2 / exps.sum, 0, pySet [ve.1], "softmax",
              .softmaxStep (v0 :: rest) ((List.range (v0 :: rest).length).map
                (fun kk => g.length + kk))⟩ : NodeRec))).length := by
          rw [List.length_map, List.length_zip, hlexps, Nat.min_self]
          exact hklen
        rw [prevOf, nodeOf_append_right, nodeOf,
          List.getD_eq_getElem _ defRec hknews]
        simp only [List.getElem_map, List.getElem_zip]
        rw [pySet_single]
        have : (v0 :: rest)[k] = (v0 :: rest).getD k 0 :=
          (List.getD_eq_getElem (v0 :: rest) 0 hklen).symm
        rw [this]

/-- Witness for C4's amended statement. -/
theorem node_parents_are_operands_inst :
    prevOf (Value.add ([⟨1, 0, [], "", .noop⟩] : Graph) 0 0).1
      (Value.add ([⟨1, 0, [], "", .noop⟩] : Graph) 0 0).2 = pySet [0, 0] :=
  (node_parents_are_operands (fun _ => 1) (fun _ => 1)
    [⟨1, 0, [], "", .noop⟩] 0 0 [0] _ _ rfl).1



/-- Claim C1 (code bug). Both softmax output nodes (ids 2 and 3) carry the
identical shared joint backward step, both are reachable from the root and
both appear in the traversal, so the joint step is executed once per
output node — twice — instead of exactly once.  The input grads come out
as `[-1, 1]`: exactly double the correct Jacobian-vector product
`[-1/2, 1/2]` for `root = o0 + 3*o1` at equal inputs. -/
theorem softmax_shared_step_fires_per_output :
    2 ∈ Value.topoList c1Build.1 c1Build.2 ∧
    3 ∈ Value.topoList c1Build.1 c1Build.2 ∧
    stepOf c1Build.1 2 = .softmaxStep [0, 1] [2, 3] ∧
    stepOf c1Build.1 3 = .softmaxStep [0, 1] [2, 3] ∧
    ∃ gf, Value.backward c1Build.1 c1Build.2 = .ok gf ∧
      gradOf gf 0 = -1 ∧ gradOf gf 1 = 1 := by
  refine ⟨by decide, by decide, by decide, by decide, ?_⟩
  refine ⟨[⟨0, -1, [], "", .noop⟩, ⟨0, 1, [], "", .noop⟩,
    ⟨1 / 2, 1, [0], "softmax", .softmaxStep [0, 1] [2, 3]⟩,
    ⟨1 / 2, 3, [1], "softmax", .softmaxStep [0, 1] [2, 3]⟩,
    ⟨3, 1 / 2, [], "", .noop⟩, ⟨3 / 2, 1, [3, 4], "*", .mul 3 4 5⟩,
    ⟨2, 1, [2, 5], "+", .add 2 5 6⟩], ?_,
    by norm_num [gradOf, nodeOf], by norm_num [gradOf, nodeOf]⟩
  norm_num [c1Build, expOne, Value.backward, Value.topoList, Value.dfs,
    Value.value, Value.softmax, Value.mul, Value.add, Value.listMax,
    Value.applyStep, Value.runSteps, pySet, pySetAux, prevOf, stepOf,
    gradOf, dataOf, nodeOf, setGrad, addGrad, updGrad, List.range_succ]
